import Mathlib

/-!
Verification of the LADSPA bridge (`ladspa.rs`): a shallow embedding of
`src/lib.rs` (typed data model) and `src/ffi.rs` (descriptor marshaler,
process-wide descriptor registry, lifecycle dispatcher with fault
containment), together with the two example fixtures (stereo delay and
ring modulator).

Modelling conventions:
* `Data` (C `float`) is modelled as `ℚ` with exact arithmetic; the ring
  modulator fixture, whose arithmetic involves `sin`, is modelled over `ℝ`.
* Rust panics in user code are modelled by the `UserResult` type: a user
  callback returns `.ok a` on normal completion and `.panicked` when it
  panics.  `call_user_code` mirrors the `call_user_code!` macro of
  `ffi.rs`: it converts `.panicked` into `none` plus the diagnostic line
  the macro prints.
* Heap allocations made by the marshaler are given explicit addresses from
  a monotone counter threaded through the registry, so that pointer
  identity, leaks and double frees are expressible.  Host buffer pointers
  are plain `Nat` addresses.
* `VecMap` (the port map of a live instance) is modelled as an association
  list with strictly increasing keys; `vmInsert` mirrors
  `VecMap::insert` (replace on an existing key) and `vmKeys`/`vmLen`
  mirror iteration order and `len`.
-/

namespace Ladspa

/-- Outcome of running user plugin code: either a normal result or a panic. -/
inductive UserResult (α : Type u) where
  | ok (a : α)
  | panicked
  deriving DecidableEq

/-- `UserResult.map`, used where `ffi.rs` wraps a user call in `Some(...)`
before handing it to the `call_user_code!` macro. -/
def UserResult.map (f : α → β) : UserResult α → UserResult β
  | .ok a => .ok (f a)
  | .panicked => .panicked

/-- The diagnostic line printed by the `call_user_code!` macro in `ffi.rs`. -/
def panicMsg (name : String) : String :=
  "ladspa.rs: " ++ "panic in " ++ name ++ " suppressed."

/-- The `call_user_code!` macro of `ffi.rs` (lines 12-22): `catch_unwind`
around a user call whose value is `Option`-typed; a panic is converted to
`None` and a diagnostic is printed.  The second component of the result is
the list of diagnostic lines emitted. -/
def call_user_code (r : UserResult (Option α)) (name : String) :
    Option α × List String :=
  match r with
  | .ok x => (x, [])
  | .panicked => (none, [panicMsg name])

/-! ### The typed data model of `src/lib.rs` -/

/-- `Data` (`c_float` in `ladspa.h`), modelled with exact arithmetic. -/
abbrev Data := ℚ

/-- Constants from `ladspa_h` in `ffi.rs` (the `ladspa.h` bit values),
as natural numbers. -/
def PORT_INPUT : Nat := 0x1
def PORT_OUTPUT : Nat := 0x2
def PORT_CONTROL : Nat := 0x4
def PORT_AUDIO : Nat := 0x8
def HINT_BOUNDED_BELOW : Nat := 0x1
def HINT_BOUNDED_ABOVE : Nat := 0x2
def HINT_TOGGLED : Nat := 0x4
def HINT_SAMPLE_RATE : Nat := 0x8
def HINT_LOGARITHMIC : Nat := 0x10
def HINT_INTEGER : Nat := 0x20

/-- `PortDescriptor` of `lib.rs`: the closed set of port kinds. -/
inductive PortDescriptor where
  | invalid
  | audioInput
  | audioOutput
  | controlInput
  | controlOutput
  deriving DecidableEq

/-- The discriminant values of `PortDescriptor` in `lib.rs`
(`PORT_AUDIO | PORT_INPUT` etc.). -/
def PortDescriptor.bits : PortDescriptor → Nat
  | .invalid => 0
  | .audioInput => PORT_AUDIO ||| PORT_INPUT
  | .audioOutput => PORT_AUDIO ||| PORT_OUTPUT
  | .controlInput => PORT_CONTROL ||| PORT_INPUT
  | .controlOutput => PORT_CONTROL ||| PORT_OUTPUT

/-- `ControlHint` of `lib.rs`: a bitflags type that can only hold the four
declared hint bits (`bitflags!` rejects undeclared bits), modelled as one
`Bool` per declared flag. -/
structure ControlHint where
  toggled : Bool
  sampleRate : Bool
  logarithmic : Bool
  integer : Bool
  deriving DecidableEq

/-- `ControlHint::bits()`: the OR of the set flags. -/
def ControlHint.bits (h : ControlHint) : Nat :=
  (if h.toggled then HINT_TOGGLED else 0) |||
  (if h.sampleRate then HINT_SAMPLE_RATE else 0) |||
  (if h.logarithmic then HINT_LOGARITHMIC else 0) |||
  (if h.integer then HINT_INTEGER else 0)

/-- `DefaultValue` of `lib.rs`: the nine symbolic default policies. -/
inductive DefaultValue where
  | minimum
  | low
  | middle
  | high
  | maximum
  | value0
  | value1
  | value100
  | value440
  deriving DecidableEq

/-- The discriminant values of `DefaultValue` (the `HINT_DEFAULT_*`
constants of `ladspa.h`). -/
def DefaultValue.bits : DefaultValue → Nat
  | .minimum => 0x40
  | .low => 0x80
  | .middle => 0xC0
  | .high => 0x100
  | .maximum => 0x140
  | .value0 => 0x200
  | .value1 => 0x240
  | .value100 => 0x280
  | .value440 => 0x2C0

/-- `Port` of `lib.rs`. -/
structure Port where
  name : String
  desc : PortDescriptor
  hint : Option ControlHint
  default : Option DefaultValue
  lower_bound : Option Data
  upper_bound : Option Data
  deriving DecidableEq

/-- `PluginDescriptor` of `lib.rs`, parametric in the plugin's state type
`σ` (the `Box<Plugin + Send>` the factory returns).  The factory `new`
receives the sample rate; the `&PluginDescriptor` self-argument of the
Rust factory is omitted (a structure cannot refer to itself), and no claim
depends on it.  `properties` is the `Properties` bit-set, kept as its
`bits()` value. -/
structure PluginDescriptor (σ : Type) where
  unique_id : Nat
  label : String
  properties : Nat
  name : String
  maker : String
  copyright : String
  ports : List Port
  new : Nat → UserResult σ

/-! ### The marshaled descriptor (`ffi.rs`, `ladspa_descriptor` lines 120-159)

Every heap allocation the marshaler makes (each `CString`, each boxed
slice, the boxed `PluginDescriptor`, and the boxed flat `Descriptor`
record itself) is given an explicit address.  A field of the flat record
is modelled as the pair (address of the allocation, its contents). -/

/-- `ladspa_h::PortRangeHint`: one entry of the `port_range_hints` array. -/
structure MPortRangeHint where
  hint_descriptor : Nat
  lower_bound : Data
  upper_bound : Data
  deriving DecidableEq

/-- The flat `ladspa_h::Descriptor` record built by the marshaler.  String
and array fields carry the address of their heap allocation together with
the contents behind the pointer; `port_names` additionally carries one
address per port-name `CString`. -/
structure MDescriptor (σ : Type) where
  unique_id : Nat
  label : Nat × String
  properties : Nat
  name : Nat × String
  maker : Nat × String
  copyright : Nat × String
  port_count : Nat
  port_descriptors : Nat × List Nat
  port_names : Nat × List (Nat × String)
  port_range_hints : Nat × List MPortRangeHint
  implementation_data : Nat × PluginDescriptor σ

/-- The per-port hint bit-field built by the marshaler (`ffi.rs` lines
139-148): OR of the author's hint bits, the default-value encoding, and a
bounded-below or bounded-above bit set exactly when the corresponding bound is
present; an absent bound is encoded as `0`. -/
def marshalHint (p : Port) : MPortRangeHint :=
  { hint_descriptor :=
      (p.hint.map ControlHint.bits).getD 0 |||
      (p.default.map DefaultValue.bits).getD 0 |||
      (p.lower_bound.map (fun _ => HINT_BOUNDED_BELOW)).getD 0 |||
      (p.upper_bound.map (fun _ => HINT_BOUNDED_ABOVE)).getD 0
    lower_bound := p.lower_bound.getD 0
    upper_bound := p.upper_bound.getD 0 }

/-- The marshaler (`ffi.rs` lines 120-159): builds the flat record from a
typed `PluginDescriptor`, allocating fresh addresses starting at `c`:
the four `CString`s, the `port_descriptors` array, one `CString` per port
name, the `port_names` array, the `port_range_hints` array, and the boxed
typed descriptor stored as `implementation_data`. -/
def marshal (plugin : PluginDescriptor σ) (c : Nat) : MDescriptor σ :=
  let P := plugin.ports.length
  { unique_id := plugin.unique_id
    label := (c, plugin.label)
    properties := plugin.properties
    name := (c + 1, plugin.name)
    maker := (c + 2, plugin.maker)
    copyright := (c + 3, plugin.copyright)
    port_count := P
    port_descriptors := (c + 4, plugin.ports.map (fun p => p.desc.bits))
    port_names := (c + 5 + P,
      plugin.ports.enum.map (fun jp => (c + 5 + jp.1, jp.2.name)))
    port_range_hints := (c + 6 + P, plugin.ports.map marshalHint)
    implementation_data := (c + 7 + P, plugin) }

/-- Address of the `Box::new(ladspa_h::Descriptor { ... })` shell holding
the flat record (the pointer stored in the global `DESCRIPTORS` table and
returned to the host). -/
def marshalShell (plugin : PluginDescriptor σ) (c : Nat) : Nat :=
  c + 8 + plugin.ports.length

/-- First address free after marshaling `plugin` starting at `c`: the
marshaler allocates exactly the addresses in `[c, marshalNext plugin c)`. -/
def marshalNext (plugin : PluginDescriptor σ) (c : Nat) : Nat :=
  c + 9 + plugin.ports.length

/-! ### Reading bounds back out of the flat record

The encoding rules of the flat record: a bound is real only when the
corresponding bounded bit of the hint bit-field is set. -/

/-- Read the lower bound back from a flat hint record. -/
def readLowerBound (h : MPortRangeHint) : Option Data :=
  if h.hint_descriptor.testBit 0 then some h.lower_bound else none

/-- Read the upper bound back from a flat hint record. -/
def readUpperBound (h : MPortRangeHint) : Option Data :=
  if h.hint_descriptor.testBit 1 then some h.upper_bound else none

/-! ### The descriptor registry (`ffi.rs`, `DESCRIPTORS` and
`ladspa_descriptor`, lines 93-167)

`DESCRIPTORS` is the process-wide `Vec<*mut ladspa_h::Descriptor>`; it is
modelled as the list of (shell address, flat record) pairs, together with
the allocation counter `next` (every address `< next` has been handed out
by the marshaler, in order). -/

/-- The process-wide descriptor table plus the allocation counter. -/
structure Registry (σ : Type) where
  table : List (Nat × MDescriptor σ)
  next : Nat

/-- The empty registry installed on first access
(`DESCRIPTORS = Box::new(Vec::new())`). -/
def Registry.empty (σ : Type) : Registry σ := ⟨[], 0⟩

/-- The exported `ladspa_descriptor` entry point (`ffi.rs` lines 105-167):
an already-built index returns the cached shell pointer unchanged;
otherwise the user factory runs under the fault boundary, a produced
descriptor is marshaled, appended to the table and its shell pointer
returned, and a declined or panicked factory yields a null pointer with
nothing cached.  Returns (new registry state, returned pointer or null,
diagnostics printed). -/
def ladspa_descriptor (factory : Nat → UserResult (Option (PluginDescriptor σ)))
    (st : Registry σ) (index : Nat) : Registry σ × Option Nat × List String :=
  if h : index < st.table.length then
    (st, some (st.table.get ⟨index, h⟩).1, [])
  else
    match call_user_code (factory index) "get_ladspa_descriptor" with
    | (some plugin, log) =>
        let shell := marshalShell plugin st.next
        ({ table := st.table ++ [(shell, marshal plugin st.next)]
           next := marshalNext plugin st.next }, some shell, log)
    | (none, log) => (st, none, log)

/-- `drop_descriptor` (`ffi.rs` lines 178-196): the addresses freed for one
flat record, in source order — the four `CString`s, the
`port_descriptors` array, each port-name `CString` and the `port_names`
array, the `port_range_hints` array, and the boxed typed
`PluginDescriptor` behind `implementation_data`. -/
def drop_descriptor (m : MDescriptor σ) : List Nat :=
  [m.label.1, m.name.1, m.maker.1, m.copyright.1, m.port_descriptors.1] ++
    m.port_names.2.map Prod.fst ++
    [m.port_names.1, m.port_range_hints.1, m.implementation_data.1]

/-- `global_destruct` (`ffi.rs` lines 169-176), the `atexit` hook: walks
the registry and runs `drop_descriptor` on every cached entry.  The value
is the list of all freed addresses in order.  (The `Vec` and its `Box`
are dropped too; they are host-side bookkeeping, not marshaler
allocations.) -/
def global_destruct (st : Registry σ) : List Nat :=
  (st.table.map (fun e => drop_descriptor e.2)).flatten

/-! ### The instance handle and the `VecMap` port table -/

/-- `PortData` of `lib.rs`, with host memory abstracted to addresses: an
audio view is a (base pointer, length) slice, a control view is the raw
pointer itself. -/
inductive PortData where
  | audioInput (ptr len : Nat)
  | audioOutput (ptr len : Nat)
  | controlInput (ptr : Nat)
  | controlOutput (ptr : Nat)
  deriving DecidableEq

/-- `PortConnection` of `lib.rs`. -/
structure PortConnection where
  port : Port
  data : PortData
  deriving DecidableEq

/-- `VecMap::insert`: keep the association list sorted by key, replacing
the value when the key is already present. -/
def vmInsert (k : Nat) (v : α) : List (Nat × α) → List (Nat × α)
  | [] => [(k, v)]
  | (k', v') :: rest =>
    if k < k' then (k, v) :: (k', v') :: rest
    else if k = k' then (k, v) :: rest
    else (k', v') :: vmInsert k v rest

/-- `VecMap` lookup by key. -/
def vmLookup (k : Nat) : List (Nat × α) → Option α
  | [] => none
  | (k', v) :: rest => if k = k' then some v else vmLookup k rest

/-- `VecMap::keys` in iteration (ascending key) order. -/
def vmKeys (m : List (Nat × α)) : List Nat := m.map Prod.fst

/-- The `Handle` struct of `ffi.rs` (lines 199-204): the boxed typed
plugin object, the `VecMap` of port connections, and the cached ordered
`ports` list handed to plugin code, kept as the list of port indices
(the Rust `Vec<&PortConnection>` holds references into `port_map`). -/
structure Handle (σ : Type) where
  descriptor : PluginDescriptor σ
  plugin : σ
  port_map : List (Nat × PortConnection)
  ports : List Nat

/-- `instantiate` (`ffi.rs` lines 206-228): run the user factory under the
fault boundary; a panic yields a null handle, otherwise a fresh handle
with an empty port map and an empty ports list. -/
def instantiate (desc : PluginDescriptor σ) (sample_rate : Nat) :
    Option (Handle σ) × List String :=
  match call_user_code ((desc.new sample_rate).map some) "PluginDescriptor::run" with
  | (none, log) => (none, log)
  | (some plug, log) => (some ⟨desc, plug, [], []⟩, log)

/-- The typed port view built at binding time (`ffi.rs` lines 239-256):
audio views start with length 0 (the sample count is unknown until `run`),
control views are the raw pointer; an `Invalid` port descriptor panics. -/
def mkPortData : PortDescriptor → Nat → Option PortData
  | .audioInput, loc => some (.audioInput loc 0)
  | .audioOutput, loc => some (.audioOutput loc 0)
  | .controlInput, loc => some (.controlInput loc)
  | .controlOutput, loc => some (.controlOutput loc)
  | .invalid, _ => none

/-- `connect_port` (`ffi.rs` lines 230-270): build the typed view for the
declared port at `port_num` and insert it into the port map (replacing any
prior binding); once the map covers every declared port, recompute the
cached `ports` list from the map.  `none` models the Rust panics on a
host-contract violation (index past the declared ports, or an `Invalid`
port descriptor); these are not routed through the fault boundary. -/
def connect_port (h : Handle σ) (port_num : Nat) (data_location : Nat) :
    Option (Handle σ) :=
  match h.descriptor.ports[port_num]? with
  | none => none
  | some port =>
    match mkPortData port.desc data_location with
    | none => none
    | some pdata =>
      let m := vmInsert port_num ⟨port, pdata⟩ h.port_map
      some { h with
        port_map := m
        ports := if m.length = h.descriptor.ports.length then vmKeys m else h.ports }

/-- The per-call refresh of an audio view (`ffi.rs` lines 275-287): the
slice is rebuilt from the pointer already bound, with the current sample
count; control views are untouched. -/
def PortData.refresh (n : Nat) : PortData → PortData
  | .audioInput ptr _ => .audioInput ptr n
  | .audioOutput ptr _ => .audioOutput ptr n
  | d => d

/-- The per-call refresh of one bound connection: same port, view rebuilt
with the current sample count. -/
def PortConnection.refresh (n : Nat) (c : PortConnection) : PortConnection :=
  ⟨c.port, c.data.refresh n⟩

/-- Refresh every view in the port map with the current sample count. -/
def runRefresh (h : Handle σ) (n : Nat) : Handle σ :=
  { h with port_map := h.port_map.map (fun kv => (kv.1, PortConnection.refresh n kv.2)) }

/-- The ports list as plugin code sees it: the cached index list resolved
through the (refreshed) port map. -/
def viewsOf (h : Handle σ) : List (Option PortConnection) :=
  h.ports.map (fun k => vmLookup k h.port_map)

/-- `run` (`ffi.rs` lines 272-295): refresh every audio view with the
current sample count, then dispatch to the plugin's `run` under the fault
boundary; a panic leaves the handle as refreshed ("nothing happened").
Returns (handle after the call, views handed to plugin code, diagnostics). -/
def run (h : Handle σ) (sample_count : Nat)
    (userRun : σ → Nat → List (Option PortConnection) → UserResult σ) :
    Handle σ × List (Option PortConnection) × List String :=
  let h' := runRefresh h sample_count
  match call_user_code ((userRun h'.plugin sample_count (viewsOf h')).map some)
      "Plugin::run" with
  | (some s, log) => ({ h' with plugin := s }, viewsOf h', log)
  | (none, log) => (h', viewsOf h', log)

/-- `activate` (`ffi.rs` lines 297-303): dispatch to the plugin's
`activate` under the fault boundary. -/
def activate (h : Handle σ) (userActivate : σ → UserResult σ) :
    Handle σ × List String :=
  match call_user_code ((userActivate h.plugin).map some) "Plugin::activate" with
  | (some s, log) => ({ h with plugin := s }, log)
  | (none, log) => (h, log)

/-- `deactivate` (`ffi.rs` lines 304-310). -/
def deactivate (h : Handle σ) (userDeactivate : σ → UserResult σ) :
    Handle σ × List String :=
  match call_user_code ((userDeactivate h.plugin).map some) "Plugin::deactivate" with
  | (some s, log) => ({ h with plugin := s }, log)
  | (none, log) => (h, log)

/-- `cleanup` (`ffi.rs` lines 317-321): reconstitute and drop the boxed
handle; total, no user code involved. -/
def cleanup (_h : Handle σ) : PUnit := PUnit.unit

end Ladspa

/-! ### The stereo delay fixture (`examples/delay/src/lib.rs`)

State and `run` of the `Delay` plugin, over exact arithmetic.  The
`Vec<(Data, Data)>` ring buffer is modelled as a function from positions
to sample pairs together with its length (the code only ever indexes the
buffer modulo its length). -/

namespace DelayEx

/-- `MAX_DELAY` of the delay fixture. -/
def MAX_DELAY : Ladspa.Data := 5

/-- The `Delay` plugin state. -/
structure Delay where
  sample_rate : Ladspa.Data
  buf : Nat → Ladspa.Data × Ladspa.Data
  buf_len : Nat
  buf_idx : Nat

/-- `new_delay`: fresh state with an empty buffer. -/
def new_delay (sample_rate : Nat) : Delay :=
  { sample_rate := (sample_rate : ℚ), buf := fun _ => (0, 0), buf_len := 0, buf_idx := 0 }

/-- `Delay::activate`: clear the buffer, resize it to
`(sample_rate * MAX_DELAY * 1.0) as usize + 1` zeroed pairs, reset the
write index. -/
def Delay.activate (d : Delay) : Delay :=
  { d with
    buf := fun _ => (0, 0)
    buf_len := (Int.floor (d.sample_rate * MAX_DELAY * 1)).toNat + 1
    buf_idx := 0 }

/-- The per-sample loop of `Delay::run` (lines 40-52), iterating `i` from
the given start for `n` steps: read the two delayed samples, mix with the
dry input by `dry_wet`, then store the input pair at the write position.
Returns the two output sample lists and the final buffer. -/
def runLoop (wet0 wet1 : Ladspa.Data) (in0 in1 : Nat → Ladspa.Data)
    (readIdx0 readIdx1 bufLen bufIdx : Nat) :
    Nat → Nat → (Nat → Ladspa.Data × Ladspa.Data) →
      List Ladspa.Data × List Ladspa.Data × (Nat → Ladspa.Data × Ladspa.Data)
  | _, 0, buf => ([], [], buf)
  | i, n + 1, buf =>
    let inS : Ladspa.Data × Ladspa.Data := (in0 i, in1 i)
    let o0 := wet0 * (buf ((readIdx0 + i) % bufLen)).1 + inS.1 * (1 - wet0)
    let o1 := wet1 * (buf ((readIdx1 + i) % bufLen)).2 + inS.2 * (1 - wet1)
    let buf' := Function.update buf ((i + bufIdx) % bufLen) inS
    let rest := runLoop wet0 wet1 in0 in1 readIdx0 readIdx1 bufLen bufIdx (i + 1) n buf'
    (o0 :: rest.1, o1 :: rest.2.1, rest.2.2)

/-- `Delay::run` (lines 29-56): control ports 4/5 are the two delays in
seconds, ports 6/7 the two dry/wet mixes; the delay in samples is
`(delay * sample_rate) as usize`, the read position
`buf_idx + buf_len - delay`.  Returns (left output, right output, new
state). -/
def Delay.run (d : Delay) (sample_count : Nat) (in0 in1 : Nat → Ladspa.Data)
    (delay0 delay1 wet0 wet1 : Ladspa.Data) :
    List Ladspa.Data × List Ladspa.Data × Delay :=
  let delayN0 := (Int.floor (delay0 * d.sample_rate)).toNat
  let delayN1 := (Int.floor (delay1 * d.sample_rate)).toNat
  let readIdx0 := d.buf_idx + d.buf_len - delayN0
  let readIdx1 := d.buf_idx + d.buf_len - delayN1
  let r := runLoop wet0 wet1 in0 in1 readIdx0 readIdx1 d.buf_len d.buf_idx 0 sample_count d.buf
  (r.1, r.2.1,
    { d with buf := r.2.2, buf_idx := (d.buf_idx + sample_count) % d.buf_len })

end DelayEx

/-! ### The ring modulator fixture (`examples/ringmod/src/lib.rs`)

`RingMod::run` multiplies each input sample by
`sin(2.0 * 3.14159 * freq * time)`; its arithmetic involves `sin`, so this
fixture is modelled over `ℝ` with `Real.sin`. -/

namespace RingModEx

/-- The `RingMod` plugin state. -/
structure RingMod where
  time : Nat
  sample_rate : Nat

/-- `new_ringmod`. -/
def new_ringmod (sample_rate : Nat) : RingMod :=
  { time := 0, sample_rate := sample_rate }

/-- `RingMod::run` (lines 19-30): `output[i] = input[i] *
sin(2.0 * 3.14159 * freq * ((i + time) / sample_rate))`, then the time
state advances by the sample count. -/
noncomputable def RingMod.run (r : RingMod) (sample_count : Nat)
    (input : Nat → ℝ) (freq : ℝ) : List ℝ × RingMod :=
  ((List.range sample_count).map (fun i =>
      input i *
        Real.sin (2 * 3.14159 * freq *
          (((i : ℝ) + (r.time : ℝ)) / (r.sample_rate : ℝ)))),
    { r with time := r.time + sample_count })

/-- `RingMod::activate`: reset the time state. -/
def RingMod.activate (r : RingMod) : RingMod := { r with time := 0 }

end RingModEx

/-! ## Supporting lemmas -/

namespace Ladspa

/-- No declared `ControlHint` flag touches bit 0 or bit 1 of the hint
bit-field (the bounded bits). -/
theorem controlHint_bits_testBit_lt_two (h : ControlHint) (i : Nat) (hi : i < 2) :
    h.bits.testBit i = false := by
  obtain ⟨t, s, l, n⟩ := h
  interval_cases i <;>
    cases t <;> cases s <;> cases l <;> cases n <;> decide

/-- No `DefaultValue` encoding touches bit 0 or bit 1 of the hint
bit-field. -/
theorem defaultValue_bits_testBit_lt_two (v : DefaultValue) (i : Nat) (hi : i < 2) :
    v.bits.testBit i = false := by
  interval_cases i <;> cases v <;> decide

/-- Bit 0 (bounded-below) of the marshaled hint bit-field is set exactly
when the typed port has a lower bound. -/
theorem marshalHint_testBit_zero (p : Port) :
    (marshalHint p).hint_descriptor.testBit 0 = p.lower_bound.isSome := by
  have hA : ((p.hint.map ControlHint.bits).getD 0).testBit 0 = false := by
    rcases p.hint with _ | h
    · decide
    · exact controlHint_bits_testBit_lt_two h 0 (by omega)
  have hB : ((p.default.map DefaultValue.bits).getD 0).testBit 0 = false := by
    rcases p.default with _ | v
    · decide
    · exact defaultValue_bits_testBit_lt_two v 0 (by omega)
  have hC : ((p.lower_bound.map (fun _ => HINT_BOUNDED_BELOW)).getD 0).testBit 0
      = p.lower_bound.isSome := by
    rcases p.lower_bound with _ | x
    · rfl
    · show Nat.testBit HINT_BOUNDED_BELOW 0 = true
      decide
  have hD : ((p.upper_bound.map (fun _ => HINT_BOUNDED_ABOVE)).getD 0).testBit 0
      = false := by
    rcases p.upper_bound with _ | y
    · rfl
    · show Nat.testBit HINT_BOUNDED_ABOVE 0 = false
      decide
  unfold marshalHint
  simp only [Nat.testBit_lor, hA, hB, hC, hD, Bool.false_or, Bool.or_false]

/-- Bit 1 (bounded-above) of the marshaled hint bit-field is set exactly
when the typed port has an upper bound. -/
theorem marshalHint_testBit_one (p : Port) :
    (marshalHint p).hint_descriptor.testBit 1 = p.upper_bound.isSome := by
  have hA : ((p.hint.map ControlHint.bits).getD 0).testBit 1 = false := by
    rcases p.hint with _ | h
    · decide
    · exact controlHint_bits_testBit_lt_two h 1 (by omega)
  have hB : ((p.default.map DefaultValue.bits).getD 0).testBit 1 = false := by
    rcases p.default with _ | v
    · decide
    · exact defaultValue_bits_testBit_lt_two v 1 (by omega)
  have hC : ((p.lower_bound.map (fun _ => HINT_BOUNDED_BELOW)).getD 0).testBit 1
      = false := by
    rcases p.lower_bound with _ | x
    · rfl
    · show Nat.testBit HINT_BOUNDED_BELOW 1 = false
      decide
  have hD : ((p.upper_bound.map (fun _ => HINT_BOUNDED_ABOVE)).getD 0).testBit 1
      = p.upper_bound.isSome := by
    rcases p.upper_bound with _ | y
    · rfl
    · show Nat.testBit HINT_BOUNDED_ABOVE 1 = true
      decide
  unfold marshalHint
  simp only [Nat.testBit_lor, hA, hB, hC, hD, Bool.false_or, Bool.or_false]

/-- Reading the lower bound back from a marshaled hint recovers the typed
port's lower bound. -/
theorem readLowerBound_marshalHint (p : Port) :
    readLowerBound (marshalHint p) = p.lower_bound := by
  unfold readLowerBound
  rw [marshalHint_testBit_zero]
  rcases hl : p.lower_bound with _ | x <;> simp [marshalHint, hl]

/-- Reading the upper bound back from a marshaled hint recovers the typed
port's upper bound. -/
theorem readUpperBound_marshalHint (p : Port) :
    readUpperBound (marshalHint p) = p.upper_bound := by
  unfold readUpperBound
  rw [marshalHint_testBit_one]
  rcases hu : p.upper_bound with _ | x <;> simp [marshalHint, hu]

/-- The numeric lower-bound slot of a marshaled hint: the typed bound, or
zero when absent. -/
theorem marshalHint_lower_field (p : Port) :
    (marshalHint p).lower_bound = p.lower_bound.getD 0 := rfl

/-- The numeric upper-bound slot of a marshaled hint: the typed bound, or
zero when absent. -/
theorem marshalHint_upper_field (p : Port) :
    (marshalHint p).upper_bound = p.upper_bound.getD 0 := rfl

end Ladspa

/-! ## Claims -/

open Ladspa in
/-- C2.  Marshaling round-trips: every string field (label, name, maker,
copyright, each port name) survives marshaling unchanged, the bounds of
every typed port are recoverable from the flat record under its encoding
rules, the bounded-below (resp. bounded-above) bit of the per-port hint
bit-field is set iff the typed lower (resp. upper) bound is present
regardless of the author's hint bits, and an absent bound is encoded as
zero (with its bounded bit clear). -/
theorem c2_marshal_round_trip (σ : Type) (d : PluginDescriptor σ) (c : Nat) :
    (marshal d c).label.2 = d.label ∧
    (marshal d c).name.2 = d.name ∧
    (marshal d c).maker.2 = d.maker ∧
    (marshal d c).copyright.2 = d.copyright ∧
    (marshal d c).port_names.2.map Prod.snd = d.ports.map Port.name ∧
    (marshal d c).port_range_hints.2.map readLowerBound
      = d.ports.map Port.lower_bound ∧
    (marshal d c).port_range_hints.2.map readUpperBound
      = d.ports.map Port.upper_bound ∧
    (marshal d c).port_range_hints.2.map (fun h => h.hint_descriptor.testBit 0)
      = d.ports.map (fun p => p.lower_bound.isSome) ∧
    (marshal d c).port_range_hints.2.map (fun h => h.hint_descriptor.testBit 1)
      = d.ports.map (fun p => p.upper_bound.isSome) ∧
    (marshal d c).port_range_hints.2.map MPortRangeHint.lower_bound
      = d.ports.map (fun p => p.lower_bound.getD 0) ∧
    (marshal d c).port_range_hints.2.map MPortRangeHint.upper_bound
      = d.ports.map (fun p => p.upper_bound.getD 0) := by
  refine ⟨rfl, rfl, rfl, rfl, ?_, ?_, ?_, ?_, ?_, ?_, ?_⟩
  · simp only [marshal, List.map_map]
    conv_rhs => rw [← List.enum_map_snd d.ports, List.map_map]
    rfl
  · simp only [marshal, List.map_map]
    exact List.map_congr_left (fun a _ => readLowerBound_marshalHint a)
  · simp only [marshal, List.map_map]
    exact List.map_congr_left (fun a _ => readUpperBound_marshalHint a)
  · simp only [marshal, List.map_map]
    exact List.map_congr_left (fun a _ => marshalHint_testBit_zero a)
  · simp only [marshal, List.map_map]
    exact List.map_congr_left (fun a _ => marshalHint_testBit_one a)
  · simp only [marshal, List.map_map]
    exact List.map_congr_left (fun a _ => marshalHint_lower_field a)
  · simp only [marshal, List.map_map]
    exact List.map_congr_left (fun a _ => marshalHint_upper_field a)

open RingModEx in
/-- C8.  With the frequency control set to 0, every `run` call of the ring
modulator fixture writes an output that is identically zero at every
sample position, regardless of the input, the sample rate, the sample
count, and the accumulated time state. -/
theorem c8_ringmod_zero_freq (r : RingMod) (n : Nat) (input : Nat → ℝ) :
    (r.run n input 0).1 = List.replicate n 0 := by
  simp [RingMod.run]

open Ladspa in
/-- C3.  A lookup on an already-built index (one the host reached by
probing consecutively from 0) returns the cached shell pointer itself and
leaves the registry untouched, so two calls with the same already-built
index return pointer-identical results. -/
theorem c3_pointer_stable (σ : Type)
    (factory : Nat → UserResult (Option (PluginDescriptor σ)))
    (st : Registry σ) (i : Nat) (h : i < st.table.length) :
    ladspa_descriptor factory st i = (st, some (st.table.get ⟨i, h⟩).1, []) ∧
    (ladspa_descriptor factory (ladspa_descriptor factory st i).1 i).2.1
      = (ladspa_descriptor factory st i).2.1 := by
  constructor
  · simp [ladspa_descriptor, h]
  · simp [ladspa_descriptor, h]

open Ladspa in
/-- C4.  For an index not yet in the table whose factory declines, the
lookup returns null, caches nothing (the registry is unchanged, so every
repeat returns null again), and a later re-probe of the same index invokes
the factory again: with a factory that now succeeds the same state yields
a fresh descriptor. -/
theorem c4_declined_not_cached (σ : Type)
    (factory : Nat → UserResult (Option (PluginDescriptor σ)))
    (st : Registry σ) (i : Nat)
    (hlen : st.table.length ≤ i) (hdecl : factory i = .ok none) :
    ladspa_descriptor factory st i = (st, none, []) ∧
    (ladspa_descriptor factory (ladspa_descriptor factory st i).1 i).2.1 = none ∧
    (∀ (factory2 : Nat → UserResult (Option (PluginDescriptor σ)))
        (plugin : PluginDescriptor σ), factory2 i = .ok (some plugin) →
      (ladspa_descriptor factory2 st i).2.1 = some (marshalShell plugin st.next)) := by
  have hnot : ¬ i < st.table.length := by omega
  refine ⟨?_, ?_, ?_⟩
  · simp [ladspa_descriptor, hnot, hdecl, call_user_code]
  · simp [ladspa_descriptor, hnot, hdecl, call_user_code]
  · intro factory2 plugin hfac
    simp [ladspa_descriptor, hnot, hfac, call_user_code]

open Ladspa in
/-- C10.  The cache is keyed by order of successful construction, not by
the requested index: a successful lookup for any index at or past the
current table length appends the new descriptor at position equal to the
current table length, and when the requested index is strictly larger
nothing is stored at the requested index itself. -/
theorem c10_append_at_length (σ : Type)
    (factory : Nat → UserResult (Option (PluginDescriptor σ)))
    (st : Registry σ) (i : Nat) (plugin : PluginDescriptor σ)
    (hlen : st.table.length ≤ i) (hfac : factory i = .ok (some plugin)) :
    (ladspa_descriptor factory st i).1.table
      = st.table ++ [(marshalShell plugin st.next, marshal plugin st.next)] ∧
    (ladspa_descriptor factory st i).1.table[st.table.length]?
      = some (marshalShell plugin st.next, marshal plugin st.next) ∧
    (ladspa_descriptor factory st i).2.1 = some (marshalShell plugin st.next) ∧
    (st.table.length < i → (ladspa_descriptor factory st i).1.table[i]? = none) := by
  have hnot : ¬ i < st.table.length := by omega
  have htab : (ladspa_descriptor factory st i).1.table
      = st.table ++ [(marshalShell plugin st.next, marshal plugin st.next)] := by
    simp [ladspa_descriptor, hnot, hfac, call_user_code]
  refine ⟨htab, ?_, ?_, ?_⟩
  · rw [htab]
    rw [List.getElem?_append_right (by omega)]
    simp
  · simp [ladspa_descriptor, hnot, hfac, call_user_code]
  · intro hi
    rw [htab]
    apply List.getElem?_eq_none
    simp
    omega

open Ladspa in
/-- C1.  Every ABI-boundary call into user code contains panics: a
panicking descriptor factory yields a null descriptor with the registry
unchanged, a panicking instance factory yields a null handle, a panicking
`activate`/`deactivate` leaves the handle untouched, a panicking `run`
returns normally with only the unconditional view refresh applied, each
call emits its diagnostic line, and `cleanup` on the same handle still
completes after a `run` panic. -/
theorem c1_panic_containment (σ : Type) (st : Registry σ) (i : Nat)
    (h : Handle σ) (desc : PluginDescriptor σ) (rate n : Nat)
    (hi : st.table.length ≤ i) (hnew : desc.new rate = .panicked) :
    ladspa_descriptor (fun _ => .panicked) st i
      = (st, none, [panicMsg "get_ladspa_descriptor"]) ∧
    instantiate desc rate = (none, [panicMsg "PluginDescriptor::run"]) ∧
    activate h (fun _ => .panicked) = (h, [panicMsg "Plugin::activate"]) ∧
    run h n (fun _ _ _ => .panicked)
      = (runRefresh h n, viewsOf (runRefresh h n), [panicMsg "Plugin::run"]) ∧
    deactivate h (fun _ => .panicked) = (h, [panicMsg "Plugin::deactivate"]) ∧
    cleanup (run h n (fun _ _ _ => .panicked)).1 = PUnit.unit := by
  have hnot : ¬ i < st.table.length := by omega
  refine ⟨?_, ?_, ?_, ?_, ?_, rfl⟩
  · simp [ladspa_descriptor, hnot, call_user_code]
  · simp [instantiate, hnew, call_user_code, UserResult.map]
  · simp [activate, call_user_code, UserResult.map]
  · simp [run, call_user_code, UserResult.map]
  · simp [deactivate, call_user_code, UserResult.map]




/-! ## Concrete fixtures for witnesses -/

namespace Ladspa

/-- A small concrete plugin descriptor used to instantiate the registry
theorems. -/
def descW : PluginDescriptor PUnit :=
  { unique_id := 400
    label := "w"
    properties := 0
    name := "W"
    maker := "m"
    copyright := "None"
    ports := [{ name := "Audio In", desc := .audioInput, hint := none,
                default := none, lower_bound := none, upper_bound := none }]
    new := fun _ => .ok PUnit.unit }

/-- A concrete factory exposing `descW` at index 0. -/
def facW : Nat → UserResult (Option (PluginDescriptor PUnit)) :=
  fun i => if i = 0 then .ok (some descW) else .ok none

/-- The registry after the host's first successful probe of index 0. -/
def stW : Registry PUnit := (ladspa_descriptor facW (Registry.empty PUnit) 0).1

/-- A descriptor whose instance factory panics. -/
def descPan : PluginDescriptor PUnit :=
  { descW with new := fun _ => .panicked }

/-- A live handle over `descPan` with nothing bound yet. -/
def handleW : Handle PUnit := ⟨descPan, PUnit.unit, [], []⟩

end Ladspa

open Ladspa in
/-- Witness for C3 at a concrete registry holding one built descriptor. -/
theorem c3_pointer_stable_witness :
    ladspa_descriptor facW stW 0 = (stW, some (stW.table.get ⟨0, by decide⟩).1, []) ∧
    (ladspa_descriptor facW (ladspa_descriptor facW stW 0).1 0).2.1
      = (ladspa_descriptor facW stW 0).2.1 :=
  c3_pointer_stable PUnit facW stW 0 (by decide)

open Ladspa in
/-- Witness for C4: probing index 1 (declined by `facW`) caches nothing. -/
theorem c4_declined_not_cached_witness :
    ladspa_descriptor facW stW 1 = (stW, none, []) :=
  (c4_declined_not_cached PUnit facW stW 1 (by decide) rfl).1

open Ladspa in
/-- Witness for C10: the first successful probe appends at position 0. -/
theorem c10_append_at_length_witness :
    (ladspa_descriptor facW (Registry.empty PUnit) 0).1.table
      = (Registry.empty PUnit).table ++
        [(marshalShell descW (Registry.empty PUnit).next,
          marshal descW (Registry.empty PUnit).next)] :=
  (c10_append_at_length PUnit facW (Registry.empty PUnit) 0 descW (by decide) rfl).1

open Ladspa in
/-- Witness for C1 at a concrete panicking factory, descriptor and handle. -/
theorem c1_panic_containment_witness :
    ladspa_descriptor (fun _ => .panicked) (Registry.empty PUnit) 0
      = (Registry.empty PUnit, none, [panicMsg "get_ladspa_descriptor"]) ∧
    instantiate descPan 44100 = (none, [panicMsg "PluginDescriptor::run"]) ∧
    run handleW 64 (fun _ _ _ => .panicked)
      = (runRefresh handleW 64, viewsOf (runRefresh handleW 64),
          [panicMsg "Plugin::run"]) ∧
    cleanup (run handleW 64 (fun _ _ _ => .panicked)).1 = PUnit.unit := by
  have h := c1_panic_containment PUnit (Registry.empty PUnit) 0 handleW descPan 44100 64
    (by decide) rfl
  exact ⟨h.1, h.2.1, h.2.2.2.1, h.2.2.2.2.2⟩

/-! ## C7: the stereo delay scenario -/

namespace DelayEx

/-- With both dry/wet controls at 0 the per-sample loop copies the input
to the output on both channels, for any read positions and any buffer. -/
theorem runLoop_wet_zero (in0 in1 : Nat → Ladspa.Data) (r0 r1 bl bi : Nat) :
    ∀ (n i : Nat) (buf : Nat → Ladspa.Data × Ladspa.Data),
      (runLoop 0 0 in0 in1 r0 r1 bl bi i n buf).1 = (List.range' i n).map in0 ∧
      (runLoop 0 0 in0 in1 r0 r1 bl bi i n buf).2.1 = (List.range' i n).map in1 := by
  intro n
  induction n with
  | zero => intro i buf; simp [runLoop]
  | succ m ih =>
    intro i buf
    have h := ih (i + 1) (Function.update buf ((i + bi) % bl) (in0 i, in1 i))
    simp only [runLoop, List.range'_succ, List.map_cons]
    constructor
    · rw [h.1]
      norm_num
    · rw [h.2]
      norm_num

end DelayEx

open DelayEx in
/-- C7 counterexample.  The claim as stated fails on the code: at sample
rate 44100, delay controls 0 and dry/wet controls 1.0, the first `run`
after `activate` on the constant input 1 produces output 0, not the input
(with dry/wet = 1.0 the code emits the buffered — delayed — signal, which
is still silence). -/
theorem c7_claim_counterexample :
    ¬ (((new_delay 44100).activate).run 1
        (fun _ => 1) (fun _ => 1) 0 0 1 1).1 = [1] := by
  have hact : (new_delay 44100).activate = ⟨44100, fun _ => (0, 0), 220501, 0⟩ := by
    unfold new_delay Delay.activate MAX_DELAY
    norm_num
    decide
  rw [hact]
  unfold Delay.run
  norm_num
  unfold runLoop runLoop
  norm_num

open DelayEx in
/-- C7 (amended).  For the stereo delay fixture at sample rate 44100 (so
with the buffer length 220501 that `activate` installs), with both delay
controls at 0 seconds and both dry/wet controls at 0.0, every `run` call
after `activate` — any reachable buffer contents and write index — writes
output samples exactly equal to the corresponding input samples on both
channels, for every input buffer and sample count. -/
theorem c7_dry_feed_through (buf : Nat → Ladspa.Data × Ladspa.Data)
    (idx n : Nat) (in0 in1 : Nat → Ladspa.Data) :
    ((Delay.mk 44100 buf 220501 idx).run n in0 in1 0 0 0 0).1
      = (List.range n).map in0 ∧
    ((Delay.mk 44100 buf 220501 idx).run n in0 in1 0 0 0 0).2.1
      = (List.range n).map in1 := by
  unfold Delay.run
  norm_num
  have h := runLoop_wet_zero in0 in1 (idx + 220501) (idx + 220501) 220501 idx n 0 buf
  rw [List.range_eq_range']
  exact h

/-! ## C5: rebinding and the per-run view refresh -/

namespace Ladspa

/-- Inserting twice at the same key replaces the first insertion. -/
theorem vmInsert_vmInsert_same (k : Nat) (v v' : α) (m : List (Nat × α)) :
    vmInsert k v' (vmInsert k v m) = vmInsert k v' m := by
  induction m with
  | nil => simp [vmInsert]
  | cons e rest ih =>
    obtain ⟨k', w⟩ := e
    by_cases h1 : k < k'
    · simp [vmInsert, h1]
    · by_cases h2 : k = k'
      · subst h2
        simp [vmInsert, h1]
      · simp [vmInsert, h1, h2, ih]

/-- Lookup after insertion at the same key. -/
theorem vmLookup_vmInsert_self (k : Nat) (v : α) (m : List (Nat × α)) :
    vmLookup k (vmInsert k v m) = some v := by
  induction m with
  | nil => simp [vmInsert, vmLookup]
  | cons e rest ih =>
    obtain ⟨k', w⟩ := e
    by_cases h1 : k < k'
    · simp [vmInsert, h1, vmLookup]
    · by_cases h2 : k = k'
      · subst h2
        simp [vmInsert, h1, vmLookup]
      · simp [vmInsert, h1, h2, vmLookup, ih]

/-- Lookup commutes with mapping over the stored values. -/
theorem vmLookup_map_value (g : α → β) (k : Nat) (m : List (Nat × α)) :
    vmLookup k (m.map (fun kv => (kv.1, g kv.2))) = (vmLookup k m).map g := by
  induction m with
  | nil => simp [vmLookup]
  | cons e rest ih =>
    obtain ⟨k', w⟩ := e
    by_cases h : k = k'
    · subst h
      simp [vmLookup]
    · simp [vmLookup, h, ih]

/-- The length of the map after an insertion does not depend on the
inserted value. -/
theorem vmInsert_length_value_free (k : Nat) (v v' : α) (m : List (Nat × α)) :
    (vmInsert k v m).length = (vmInsert k v' m).length := by
  induction m with
  | nil => simp [vmInsert]
  | cons e rest ih =>
    obtain ⟨k', w⟩ := e
    by_cases h1 : k < k'
    · simp [vmInsert, h1]
    · by_cases h2 : k = k'
      · subst h2
        simp [vmInsert, h1]
      · simp [vmInsert, h1, h2, ih]

/-- The keys after an insertion do not depend on the inserted value. -/
theorem vmKeys_vmInsert_value_free (k : Nat) (v v' : α) (m : List (Nat × α)) :
    vmKeys (vmInsert k v m) = vmKeys (vmInsert k v' m) := by
  induction m with
  | nil => simp [vmInsert, vmKeys]
  | cons e rest ih =>
    obtain ⟨k', w⟩ := e
    by_cases h1 : k < k'
    · simp [vmInsert, h1, vmKeys]
    · by_cases h2 : k = k'
      · subst h2
        simp [vmInsert, h1, vmKeys]
      · simp [vmInsert, h1, h2, vmKeys]
        exact ih

/-- The port map after `run` is the bound map with every view refreshed,
whether or not the plugin's own `run` panicked. -/
theorem run_port_map (h : Handle σ) (n : Nat)
    (f : σ → Nat → List (Option PortConnection) → UserResult σ) :
    (run h n f).1.port_map
      = h.port_map.map (fun kv => (kv.1, PortConnection.refresh n kv.2)) := by
  rcases hr : f (runRefresh h n).plugin n (viewsOf (runRefresh h n)) with s | _ <;>
    simp only [run, hr, UserResult.map, call_user_code] <;>
    simp [runRefresh]

end Ladspa

open Ladspa in
/-- C5.  Binding the same port index twice with different raw pointers
replaces the prior connection — a second `connect_port` on the rebound
handle behaves exactly as a first `connect_port` with the new pointer —
and on every `run` call every audio port's view is unconditionally rebuilt
from the currently bound pointer with the current sample count, so a `run`
after rebinding observes only the new pointer. -/
theorem c5_rebind_replaces (σ : Type) (h h1 : Handle σ) (i p p' n : Nat)
    (f : σ → Nat → List (Option PortConnection) → UserResult σ)
    (hc : connect_port h i p = some h1) :
    connect_port h1 i p' = connect_port h i p' ∧
    (∀ h2, connect_port h1 i p' = some h2 →
      (∀ k, vmLookup k (run h2 n f).1.port_map
          = (vmLookup k h2.port_map).map (PortConnection.refresh n)) ∧
      (∀ port, h.descriptor.ports[i]? = some port →
        (port.desc = .audioInput →
          vmLookup i (run h2 n f).1.port_map = some ⟨port, .audioInput p' n⟩) ∧
        (port.desc = .audioOutput →
          vmLookup i (run h2 n f).1.port_map = some ⟨port, .audioOutput p' n⟩))) := by
  obtain ⟨d0, s0, pm0, ps0⟩ := h
  rcases hg : d0.ports[i]? with _ | port0
  · simp [connect_port, hg] at hc
  rcases hmk : mkPortData port0.desc p with _ | pd
  · simp [connect_port, hg, hmk] at hc
  simp only [connect_port, hg, hmk, Option.some.injEq] at hc
  subst hc
  constructor
  · simp only [connect_port, hg]
    rcases hmk2 : mkPortData port0.desc p' with _ | pd2
    · rfl
    · simp only [Option.some.injEq]
      have hmap := vmInsert_vmInsert_same i (⟨port0, pd⟩ : PortConnection) ⟨port0, pd2⟩ pm0
      rw [hmap]
      congr 1
      by_cases hN : (vmInsert i (⟨port0, pd2⟩ : PortConnection) pm0).length = d0.ports.length
      · simp [hN]
      · have hN2 : ¬ (vmInsert i (⟨port0, pd⟩ : PortConnection) pm0).length
            = d0.ports.length := by
          rw [vmInsert_length_value_free i (⟨port0, pd⟩ : PortConnection) ⟨port0, pd2⟩ pm0]
          exact hN
        simp [hN, hN2]
  · intro h2 hc2
    refine ⟨fun k => ?_, ?_⟩
    · rw [run_port_map h2 n f, vmLookup_map_value]
    · intro port hport
      obtain rfl : port0 = port := by injection hport
      constructor
      · intro hdesc
        have hmk2 : mkPortData port0.desc p' = some (.audioInput p' 0) := by
          rw [hdesc]; rfl
        simp only [connect_port, hg, hmk2, Option.some.injEq] at hc2
        subst hc2
        rw [run_port_map, vmLookup_map_value]
        rw [vmLookup_vmInsert_self]
        rfl
      · intro hdesc
        have hmk2 : mkPortData port0.desc p' = some (.audioOutput p' 0) := by
          rw [hdesc]; rfl
        simp only [connect_port, hg, hmk2, Option.some.injEq] at hc2
        subst hc2
        rw [run_port_map, vmLookup_map_value]
        rw [vmLookup_vmInsert_self]
        rfl

namespace Ladspa

/-- The handle for `descW` after binding port 0 to pointer 1: the map
holds the audio-in view for pointer 1, and since the single declared port
is bound, the ports list is recomputed to `[0]`. -/
def handleW1 : Handle PUnit :=
  ⟨descW, PUnit.unit,
    [(0, ⟨{ name := "Audio In", desc := .audioInput, hint := none,
            default := none, lower_bound := none, upper_bound := none },
          .audioInput 1 0⟩)], [0]⟩

end Ladspa

open Ladspa in
/-- Witness for C5: rebinding port 0 of the concrete one-port handle from
pointer 1 to pointer 2 behaves as a first bind of pointer 2. -/
theorem c5_rebind_replaces_witness :
    connect_port handleW1 0 2 = connect_port (⟨descW, PUnit.unit, [], []⟩ : Handle PUnit) 0 2 :=
  (c5_rebind_replaces PUnit ⟨descW, PUnit.unit, [], []⟩ handleW1 0 1 2 4
    (fun _ _ _ => .panicked) rfl).1

/-! ## C6: the ports list is exposed only once binding is complete -/

namespace Ladspa

/-- `vmInsert` in front of a larger key prepends. -/
theorem vmInsert_cons_lt {k k' : Nat} (v w : α) (rest : List (Nat × α))
    (h : k < k') : vmInsert k v ((k', w) :: rest) = (k, v) :: (k', w) :: rest := by
  simp [vmInsert, h]

/-- `vmInsert` on the same key replaces. -/
theorem vmInsert_cons_eq (k : Nat) (v w : α) (rest : List (Nat × α)) :
    vmInsert k v ((k, w) :: rest) = (k, v) :: rest := by
  simp [vmInsert]

/-- `vmInsert` past a smaller key recurses. -/
theorem vmInsert_cons_gt {k k' : Nat} (v w : α) (rest : List (Nat × α))
    (h : k' < k) : vmInsert k v ((k', w) :: rest) = (k', w) :: vmInsert k v rest := by
  have h1 : ¬ k < k' := by omega
  have h2 : ¬ k = k' := by omega
  simp [vmInsert, h1, h2]

/-- Membership in the keys after an insertion. -/
theorem vmKeys_vmInsert_mem (k : Nat) (v : α) (m : List (Nat × α)) (a : Nat) :
    a ∈ vmKeys (vmInsert k v m) ↔ a = k ∨ a ∈ vmKeys m := by
  induction m with
  | nil => simp [vmInsert, vmKeys]
  | cons e rest ih =>
    obtain ⟨k', w⟩ := e
    rcases Nat.lt_trichotomy k k' with h1 | h1 | h1
    · rw [vmInsert_cons_lt v w rest h1]
      simp [vmKeys]
    · subst h1
      rw [vmInsert_cons_eq]
      simp [vmKeys]
    · rw [vmInsert_cons_gt v w rest h1]
      simp only [vmKeys, List.map_cons, List.mem_cons] at ih ⊢
      rw [show List.map Prod.fst (vmInsert k v rest) = vmKeys (vmInsert k v rest)
        from rfl] at ih ⊢
      rw [ih]
      tauto

/-- The key list has the map's length. -/
theorem vmKeys_length (m : List (Nat × α)) : (vmKeys m).length = m.length := by
  simp [vmKeys]

/-- Insertion preserves the strictly increasing key order. -/
theorem vmInsert_pairwise (k : Nat) (v : α) (m : List (Nat × α))
    (hp : List.Pairwise (· < ·) (vmKeys m)) :
    List.Pairwise (· < ·) (vmKeys (vmInsert k v m)) := by
  induction m with
  | nil => simp [vmInsert, vmKeys]
  | cons e rest ih =>
    obtain ⟨k', w⟩ := e
    simp only [vmKeys, List.map_cons, List.pairwise_cons] at hp
    rcases Nat.lt_trichotomy k k' with h1 | h1 | h1
    · rw [vmInsert_cons_lt v w rest h1]
      simp only [vmKeys, List.map_cons, List.pairwise_cons]
      refine ⟨?_, hp.1, hp.2⟩
      intro b hb
      rcases List.mem_cons.mp hb with rfl | hb
      · exact h1
      · exact lt_trans h1 (hp.1 b hb)
    · subst h1
      rw [vmInsert_cons_eq]
      simp only [vmKeys, List.map_cons, List.pairwise_cons]
      exact ⟨hp.1, hp.2⟩
    · rw [vmInsert_cons_gt v w rest h1]
      simp only [vmKeys, List.map_cons, List.pairwise_cons]
      refine ⟨?_, ih hp.2⟩
      intro b hb
      rcases (vmKeys_vmInsert_mem k v rest b).mp hb with rfl | hb
      · exact h1
      · exact hp.1 b hb

/-- On a strictly sorted map the length after insertion is the old length
when the key is already bound and one more otherwise. -/
theorem vmInsert_length_of_pairwise (k : Nat) (v : α) (m : List (Nat × α))
    (hp : List.Pairwise (· < ·) (vmKeys m)) :
    (vmInsert k v m).length
      = if k ∈ vmKeys m then m.length else m.length + 1 := by
  induction m with
  | nil => simp [vmInsert, vmKeys]
  | cons e rest ih =>
    obtain ⟨k', w⟩ := e
    simp only [vmKeys, List.map_cons, List.pairwise_cons] at hp
    rcases Nat.lt_trichotomy k k' with h1 | h1 | h1
    · have hk : ¬ k ∈ vmKeys ((k', w) :: rest) := by
        simp only [vmKeys, List.map_cons, List.mem_cons]
        rintro (rfl | hk)
        · omega
        · have := hp.1 k hk
          omega
      rw [vmInsert_cons_lt v w rest h1, if_neg hk]
      simp
    · subst h1
      have hk : k ∈ vmKeys ((k, w) :: rest) := by
        simp [vmKeys]
      rw [vmInsert_cons_eq, if_pos hk]
      simp
    · rw [vmInsert_cons_gt v w rest h1]
      simp only [List.length_cons, ih hp.2]
      by_cases hk : k ∈ vmKeys rest
      · have hk2 : k ∈ vmKeys ((k', w) :: rest) := by
          simp only [vmKeys, List.map_cons, List.mem_cons]
          exact Or.inr hk
        rw [if_pos hk, if_pos hk2]
      · have hk2 : ¬ k ∈ vmKeys ((k', w) :: rest) := by
          simp only [vmKeys, List.map_cons, List.mem_cons]
          rintro (rfl | hcontra)
          · omega
          · exact hk hcontra
        rw [if_neg hk, if_neg hk2]

end Ladspa

namespace Ladspa

/-- A sequence of host `connect_port` calls, each (port index, pointer);
`none` when some call hits a host-contract violation. -/
def applyConnects (h : Handle σ) : List (Nat × Nat) → Option (Handle σ)
  | [] => some h
  | (i, ptr) :: rest =>
    match connect_port h i ptr with
    | some h1 => applyConnects h1 rest
    | none => none

/-- Invariant of a live handle: the port map is keyed by strictly
increasing declared port indices, and the cached `ports` list is empty
until the map covers every declared port, at which point it is exactly
the map's ascending key list. -/
def HandleInv (h : Handle σ) : Prop :=
  List.Pairwise (· < ·) (vmKeys h.port_map) ∧
  (∀ k ∈ vmKeys h.port_map, k < h.descriptor.ports.length) ∧
  (if h.port_map.length = h.descriptor.ports.length
    then h.ports = vmKeys h.port_map else h.ports = [])

/-- One successful `connect_port` preserves the invariant, keeps the
descriptor, and adds exactly the bound index to the key set. -/
theorem connect_port_inv (σ : Type) (h h1 : Handle σ) (i ptr : Nat)
    (hc : connect_port h i ptr = some h1) (hinv : HandleInv h) :
    HandleInv h1 ∧ h1.descriptor = h.descriptor ∧
      (∀ a, a ∈ vmKeys h1.port_map ↔ a = i ∨ a ∈ vmKeys h.port_map) := by
  obtain ⟨d0, s0, pm0, ps0⟩ := h
  rcases hg : d0.ports[i]? with _ | port0
  · simp [connect_port, hg] at hc
  rcases hmk : mkPortData port0.desc ptr with _ | pd
  · simp [connect_port, hg, hmk] at hc
  simp only [connect_port, hg, hmk, Option.some.injEq] at hc
  subst hc
  have hiN : i < d0.ports.length := by
    obtain ⟨hlt, _⟩ := List.getElem?_eq_some_iff.mp hg
    exact hlt
  unfold HandleInv at hinv
  obtain ⟨hp0, hb0, hports0⟩ := hinv
  refine ⟨?_, rfl, fun a => vmKeys_vmInsert_mem i ⟨port0, pd⟩ pm0 a⟩
  unfold HandleInv
  refine ⟨vmInsert_pairwise i ⟨port0, pd⟩ pm0 hp0, ?_, ?_⟩
  · intro a ha
    rcases (vmKeys_vmInsert_mem i ⟨port0, pd⟩ pm0 a).mp ha with rfl | ha
    · exact hiN
    · exact hb0 a ha
  · by_cases hlen : (vmInsert i (⟨port0, pd⟩ : PortConnection) pm0).length
        = d0.ports.length
    · simp [hlen]
    · simp only [hlen, if_false]
      by_cases hfull : pm0.length = d0.ports.length
      · exfalso
        have hnd : (vmKeys pm0).Nodup := hp0.imp (fun hab => Nat.ne_of_lt hab)
        have hsub : vmKeys pm0 ⊆ List.range d0.ports.length := fun a ha =>
          List.mem_range.mpr (hb0 a ha)
        have hperm : List.Perm (vmKeys pm0) (List.range d0.ports.length) := by
          apply (List.subperm_of_subset hnd hsub).perm_of_length_le
          rw [List.length_range, vmKeys_length]
          omega
        have hmemi : i ∈ vmKeys pm0 :=
          hperm.mem_iff.mpr (List.mem_range.mpr hiN)
        rw [vmInsert_length_of_pairwise i ⟨port0, pd⟩ pm0 hp0, if_pos hmemi] at hlen
        omega
      · rw [if_neg hfull] at hports0
        exact hports0

/-- Applying a sequence of successful `connect_port` calls preserves the
invariant and accumulates exactly the requested indices as keys. -/
theorem applyConnects_inv (σ : Type) (ops : List (Nat × Nat)) :
    ∀ (h0 h : Handle σ), HandleInv h0 → applyConnects h0 ops = some h →
      HandleInv h ∧ h.descriptor = h0.descriptor ∧
      (∀ a, a ∈ vmKeys h.port_map ↔ a ∈ ops.map Prod.fst ∨ a ∈ vmKeys h0.port_map) := by
  induction ops with
  | nil =>
    intro h0 h hinv hap
    simp only [applyConnects, Option.some.injEq] at hap
    subst hap
    simp [hinv]
  | cons op rest ih =>
    intro h0 h hinv hap
    obtain ⟨i, ptr⟩ := op
    rcases hc : connect_port h0 i ptr with _ | h1
    · simp only [applyConnects, hc] at hap
      exact Option.noConfusion hap
    · simp only [applyConnects, hc] at hap
      obtain ⟨inv1, hdesc1, hmem1⟩ := connect_port_inv σ h0 h1 i ptr hc hinv
      obtain ⟨inv2, hdesc2, hmem2⟩ := ih h1 h inv1 hap
      refine ⟨inv2, by rw [hdesc2, hdesc1], ?_⟩
      intro a
      rw [hmem2 a]
      simp only [List.map_cons, List.mem_cons]
      rw [hmem1 a]
      tauto

end Ladspa

open Ladspa in
/-- C6.  Starting from a fresh instance, after any successful sequence of
`connect_port` calls the ports list handed to plugin code is empty as long
as some declared port has never been bound, and once every declared port
has been bound it is exactly the ascending index list recomputed from the
connection table. -/
theorem c6_ports_list_gated (σ : Type) (desc : PluginDescriptor σ) (s : σ)
    (ops : List (Nat × Nat)) (h : Handle σ)
    (hap : applyConnects ⟨desc, s, [], []⟩ ops = some h) :
    ((∃ j, j < desc.ports.length ∧ ∀ op ∈ ops, op.1 ≠ j) → h.ports = []) ∧
    ((∀ j, j < desc.ports.length → ∃ op ∈ ops, op.1 = j) →
      h.ports = List.range desc.ports.length) := by
  have hinv0 : HandleInv (⟨desc, s, [], []⟩ : Handle σ) := by
    refine ⟨by simp [vmKeys], by simp [vmKeys], ?_⟩
    by_cases h0 : ([] : List (Nat × PortConnection)).length = desc.ports.length
    · simp only [h0, if_pos]
      rfl
    · simp only [h0, if_neg, if_false]
  obtain ⟨hinv, hdesc, hmem⟩ := applyConnects_inv σ ops _ h hinv0 hap
  dsimp only at hdesc hmem
  obtain ⟨hp, hb, hports⟩ := hinv
  constructor
  · rintro ⟨j, hjN, hjops⟩
    have hjmem : j ∉ vmKeys h.port_map := by
      rw [hmem j]
      simp only [vmKeys, List.map_nil, List.not_mem_nil, or_false]
      intro hop
      obtain ⟨op, hopmem, hopeq⟩ := List.mem_map.mp hop
      exact hjops op hopmem hopeq
    have hnd : (vmKeys h.port_map).Nodup := hp.imp (fun hab => Nat.ne_of_lt hab)
    have hsub : vmKeys h.port_map ⊆ (List.range desc.ports.length).erase j := by
      intro a ha
      rw [List.mem_erase_of_ne (by rintro rfl; exact hjmem ha)]
      have := hb a ha
      rw [hdesc] at this
      exact List.mem_range.mpr this
    have hlen := (List.subperm_of_subset hnd hsub).length_le
    rw [List.length_erase_of_mem (List.mem_range.mpr hjN), List.length_range] at hlen
    rw [hdesc] at hports
    rw [if_neg] at hports
    · exact hports
    · rw [← vmKeys_length]
      omega
  · intro hall
    have hnd : (vmKeys h.port_map).Nodup := hp.imp (fun hab => Nat.ne_of_lt hab)
    have h1 : vmKeys h.port_map ⊆ List.range desc.ports.length := by
      intro a ha
      have := hb a ha
      rw [hdesc] at this
      exact List.mem_range.mpr this
    have h2 : List.range desc.ports.length ⊆ vmKeys h.port_map := by
      intro a ha
      rw [hmem a]
      left
      obtain ⟨op, hop, hopeq⟩ := hall a (List.mem_range.mp ha)
      exact List.mem_map.mpr ⟨op, hop, hopeq⟩
    have hperm : List.Perm (vmKeys h.port_map) (List.range desc.ports.length) :=
      (List.subperm_of_subset hnd h1).antisymm
        (List.subperm_of_subset (List.nodup_range desc.ports.length) h2)
    have hsorted1 : List.Sorted (· ≤ ·) (vmKeys h.port_map) :=
      hp.imp (fun hab => le_of_lt hab)
    have hsorted2 : List.Sorted (· ≤ ·) (List.range desc.ports.length) :=
      (List.pairwise_lt_range desc.ports.length).imp (fun hab => le_of_lt hab)
    have hkeys : vmKeys h.port_map = List.range desc.ports.length :=
      List.eq_of_perm_of_sorted hperm hsorted1 hsorted2
    rw [hdesc] at hports
    rw [if_pos] at hports
    · rw [hports, hkeys]
    · rw [← vmKeys_length, hkeys, List.length_range]

open Ladspa in
/-- Witness for C6: after the single bind that completes the one-port
descriptor `descW`, the ports list is exactly `[0]`. -/
theorem c6_ports_list_gated_witness :
    handleW1.ports = List.range descW.ports.length := by
  have h := (c6_ports_list_gated PUnit descW PUnit.unit [(0, 1)] handleW1 rfl).2
  exact h (by decide)

/-! ## C9: process-exit teardown and the allocation ledger -/

namespace Ladspa

/-- Well-formedness of a registry segment: starting from allocation
counter `c`, each cached entry in turn is the marshal of some typed
descriptor over a contiguous allocation block, its stored pointer is that
block's shell address, and the blocks chain up to the final counter `n`. -/
def tableWF (σ : Type) : Nat → List (Nat × MDescriptor σ) → Nat → Prop
  | c, [], n => n = c
  | c, e :: rest, n => ∃ plugin : PluginDescriptor σ,
      e.2 = marshal plugin c ∧ e.1 = marshalShell plugin c ∧
      tableWF σ (marshalNext plugin c) rest n

/-- The addresses of the per-port name strings allocated by the
marshaler. -/
theorem marshal_name_addrs (plugin : PluginDescriptor σ) (c : Nat) :
    (marshal plugin c).port_names.2.map Prod.fst
      = (List.range plugin.ports.length).map (fun j => c + 5 + j) := by
  simp only [marshal, List.map_map]
  conv_rhs => rw [← List.enum_map_fst plugin.ports, List.map_map]
  rfl

/-- The freed-address list of one marshaled record, explicitly. -/
theorem drop_descriptor_marshal_eq (plugin : PluginDescriptor σ) (c : Nat) :
    drop_descriptor (marshal plugin c)
      = [c, c + 1, c + 2, c + 3, c + 4]
        ++ (List.range plugin.ports.length).map (fun j => c + 5 + j)
        ++ [c + 5 + plugin.ports.length, c + 6 + plugin.ports.length,
            c + 7 + plugin.ports.length] := by
  unfold drop_descriptor
  rw [marshal_name_addrs]
  rfl

/-- `drop_descriptor` frees exactly the block `[c, marshalNext plugin c)`
except the shell address. -/
theorem drop_descriptor_marshal_mem (plugin : PluginDescriptor σ) (c a : Nat) :
    a ∈ drop_descriptor (marshal plugin c) ↔
      c ≤ a ∧ a < marshalNext plugin c ∧ a ≠ marshalShell plugin c := by
  have hA : a ∈ [c, c + 1, c + 2, c + 3, c + 4] ↔ (c ≤ a ∧ a < c + 5) := by
    simp only [List.mem_cons, List.not_mem_nil, or_false]
    omega
  have hB : a ∈ (List.range plugin.ports.length).map (fun j => c + 5 + j) ↔
      (c + 5 ≤ a ∧ a < c + 5 + plugin.ports.length) := by
    simp only [List.mem_map, List.mem_range]
    constructor
    · rintro ⟨j, hj, rfl⟩
      omega
    · intro hab
      refine ⟨a - (c + 5), ?_, ?_⟩ <;> omega
  have hC : a ∈ [c + 5 + plugin.ports.length, c + 6 + plugin.ports.length,
      c + 7 + plugin.ports.length] ↔
      (c + 5 + plugin.ports.length ≤ a ∧ a < c + 8 + plugin.ports.length) := by
    simp only [List.mem_cons, List.not_mem_nil, or_false]
    omega
  rw [drop_descriptor_marshal_eq]
  simp only [List.mem_append, hA, hB, hC]
  unfold marshalNext marshalShell
  omega

/-- `drop_descriptor` frees no address twice. -/
theorem drop_descriptor_marshal_nodup (plugin : PluginDescriptor σ) (c : Nat) :
    (drop_descriptor (marshal plugin c)).Nodup := by
  rw [drop_descriptor_marshal_eq]
  refine List.Nodup.append (List.Nodup.append ?_ ?_ ?_) ?_ ?_
  · simp
  · exact (List.nodup_range plugin.ports.length).map (fun j k hjk => by omega)
  · intro a ha hb
    simp only [List.mem_cons, List.not_mem_nil, or_false] at ha
    simp only [List.mem_map, List.mem_range] at hb
    obtain ⟨j, hj, rfl⟩ := hb
    omega
  · simp
  · intro a ha hb
    simp only [List.mem_append, List.mem_cons, List.not_mem_nil, or_false,
      List.mem_map, List.mem_range] at ha hb
    rcases ha with ha | ⟨j, hj, rfl⟩ <;> omega

/-- The final counter of a well-formed segment is at least the initial
one. -/
theorem tableWF_le (σ : Type) (table : List (Nat × MDescriptor σ)) :
    ∀ (c n : Nat), tableWF σ c table n → c ≤ n := by
  induction table with
  | nil =>
    intro c n h
    simp only [tableWF] at h
    omega
  | cons e rest ih =>
    intro c n h
    obtain ⟨plugin, _, _, hrest⟩ := h
    have := ih (marshalNext plugin c) n hrest
    unfold marshalNext at this
    omega

/-- The shell addresses of a well-formed segment lie inside its counter
range. -/
theorem tableWF_shells (σ : Type) (table : List (Nat × MDescriptor σ)) :
    ∀ (c n : Nat), tableWF σ c table n →
      ∀ s ∈ table.map Prod.fst, c ≤ s ∧ s < n := by
  induction table with
  | nil =>
    intro c n _ s hs
    simp at hs
  | cons e rest ih =>
    intro c n h s hs
    obtain ⟨plugin, _, he1, hrest⟩ := h
    have hle := tableWF_le σ rest (marshalNext plugin c) n hrest
    rcases List.mem_cons.mp hs with rfl | hs
    · rw [he1]
      unfold marshalShell marshalNext at *
      omega
    · have := ih (marshalNext plugin c) n hrest s hs
      unfold marshalNext at *
      omega

/-- Over a well-formed registry segment the teardown's freed-address list
has no duplicates and contains exactly the non-shell addresses of the
segment's counter range. -/
theorem global_destruct_segment (σ : Type) (table : List (Nat × MDescriptor σ)) :
    ∀ (c n : Nat), tableWF σ c table n →
      ((table.map (fun e => drop_descriptor e.2)).flatten.Nodup ∧
       (∀ a, a ∈ (table.map (fun e => drop_descriptor e.2)).flatten ↔
          (c ≤ a ∧ a < n ∧ a ∉ table.map Prod.fst))) := by
  induction table with
  | nil =>
    intro c n h
    simp only [tableWF] at h
    subst h
    refine ⟨by simp, ?_⟩
    intro a
    simp
  | cons e rest ih =>
    intro c n h
    obtain ⟨plugin, he2, he1, hrest⟩ := h
    obtain ⟨ihnd, ihmem⟩ := ih (marshalNext plugin c) n hrest
    have hle := tableWF_le σ rest (marshalNext plugin c) n hrest
    have hshells := tableWF_shells σ rest (marshalNext plugin c) n hrest
    have hshell_lt : marshalShell plugin c < marshalNext plugin c := by
      unfold marshalShell marshalNext
      omega
    have hc_le : c ≤ marshalShell plugin c := by
      unfold marshalShell
      omega
    constructor
    · simp only [List.map_cons, List.flatten_cons]
      refine List.Nodup.append ?_ ihnd ?_
      · rw [he2]
        exact drop_descriptor_marshal_nodup plugin c
      · intro a ha hb
        rw [he2, drop_descriptor_marshal_mem] at ha
        rw [ihmem a] at hb
        omega
    · intro a
      simp only [List.map_cons, List.flatten_cons, List.mem_append, List.mem_cons]
      rw [he2, drop_descriptor_marshal_mem, ihmem a, he1]
      constructor
      · rintro (⟨h1, h2, h3⟩ | ⟨h1, h2, h3⟩)
        · refine ⟨by omega, by omega, ?_⟩
          rintro (rfl | hmem)
          · exact h3 rfl
          · have := hshells a hmem
            omega
        · refine ⟨by omega, h2, ?_⟩
          rintro (rfl | hmem)
          · omega
          · exact h3 hmem
      · rintro ⟨h1, h2, h3⟩
        rcases Nat.lt_or_ge a (marshalNext plugin c) with hc5 | hc5
        · exact Or.inl ⟨h1, hc5, fun heq => h3 (Or.inl heq)⟩
        · exact Or.inr ⟨hc5, h2, fun hmem => h3 (Or.inr hmem)⟩

end Ladspa

namespace Ladspa

/-- Appending one freshly marshaled descriptor at the current counter
preserves well-formedness. -/
theorem tableWF_append (σ : Type) (table : List (Nat × MDescriptor σ)) :
    ∀ (c n : Nat) (plugin : PluginDescriptor σ),
      tableWF σ c table n →
      tableWF σ c (table ++ [(marshalShell plugin n, marshal plugin n)])
        (marshalNext plugin n) := by
  induction table with
  | nil =>
    intro c n plugin h
    simp only [tableWF] at h
    subst h
    exact ⟨plugin, rfl, rfl, rfl⟩
  | cons e rest ih =>
    intro c n plugin h
    obtain ⟨p0, he2, he1, hrest⟩ := h
    exact ⟨p0, he2, he1, ih _ n plugin hrest⟩

end Ladspa

open Ladspa in
/-- C9 counterexample.  The teardown hook does not free every allocation
the marshaler makes: after the first successful probe, the `Box` holding
the flat descriptor record itself (the shell, an allocation of the
marshaler and the very pointer cached in the registry) is an address below
the allocation counter that never appears in the freed list. -/
theorem c9_claim_counterexample :
    marshalShell descW 0 < stW.next ∧
    marshalShell descW 0 ∉ global_destruct stW := by
  constructor
  · decide
  · decide

open Ladspa in
/-- C9 (amended).  For an arbitrary number of previously requested
descriptors (any well-formed registry, a property that holds initially and
is preserved by every `ladspa_descriptor` call), the process-exit teardown
frees every allocation made by the marshaler — each string, each per-port
array, and the boxed original typed descriptor of every cached entry —
exactly once (the freed list has no duplicates), with the single exception
of the flat descriptor record's own box (the cached shell pointer), which
is never freed. -/
theorem c9_teardown_frees (σ : Type) :
    tableWF σ 0 (Registry.empty σ).table (Registry.empty σ).next ∧
    (∀ (factory : Nat → UserResult (Option (PluginDescriptor σ)))
        (st : Registry σ) (index : Nat),
      tableWF σ 0 st.table st.next →
      tableWF σ 0 (ladspa_descriptor factory st index).1.table
        (ladspa_descriptor factory st index).1.next) ∧
    (∀ st : Registry σ, tableWF σ 0 st.table st.next →
      (global_destruct st).Nodup ∧
      (∀ a, a ∈ global_destruct st ↔
        (a < st.next ∧ a ∉ st.table.map Prod.fst))) := by
  refine ⟨rfl, ?_, ?_⟩
  · intro factory st index hwf
    by_cases hidx : index < st.table.length
    · simp only [ladspa_descriptor, hidx, dif_pos]
      exact hwf
    · rcases hf : factory index with x | _
      · rcases x with _ | plugin
        · simp only [ladspa_descriptor, hidx, dif_neg, hf, call_user_code]
          exact hwf
        · simp only [ladspa_descriptor, hidx, dif_neg, hf, call_user_code]
          exact tableWF_append σ st.table 0 st.next plugin hwf
      · simp only [ladspa_descriptor, hidx, dif_neg, hf, call_user_code]
        exact hwf
  · intro st hwf
    obtain ⟨hnd, hmem⟩ := global_destruct_segment σ st.table 0 st.next hwf
    refine ⟨hnd, fun a => ?_⟩
    rw [show global_destruct st
      = (st.table.map (fun e => drop_descriptor e.2)).flatten from rfl]
    rw [hmem a]
    constructor
    · rintro ⟨_, h1, h2⟩
      exact ⟨h1, h2⟩
    · rintro ⟨h1, h2⟩
      exact ⟨Nat.zero_le a, h1, h2⟩

open Ladspa in
/-- Witness for the amended C9 at the concrete one-descriptor registry. -/
theorem c9_teardown_frees_witness :
    (global_destruct stW).Nodup ∧
    (∀ a, a ∈ global_destruct stW ↔
      (a < stW.next ∧ a ∉ stW.table.map Prod.fst)) :=
  (c9_teardown_frees PUnit).2.2 stW ⟨descW, rfl, rfl, rfl⟩
